import Mathlib

/-!
Verification of the backward, chunked line-extraction engine of the log
monitoring service (`app.py`): the eager tail reader
`read_last_n_lines_efficient` and the streaming variant
`read_last_n_lines_streaming`.

Modelling conventions (shallow embedding):
* A file's byte content is a `List Char`; the delimiter is the single
  character `'\n'`.  UTF-8 decoding with `errors='ignore'` is modelled as the
  identity on this representation (every modelled byte is a valid character),
  and text-mode newline translation of carriage returns is not modelled.
* `str.strip()` is `pyStrip` (strips the ASCII whitespace characters Python
  strips), `str.lower()` is `List.map Char.toLower` (ASCII case folding), and
  the Python substring test `a in b` is `subIn a b`.
* The filesystem target is an `FsEntry`: `missing` (the `exists()` check
  fails), `directory` (exists, `stat().st_size` is its reported size, but
  `open()` raises `IsADirectoryError`, an `OSError`), or `regular` with the
  file's content.  Raised exceptions become `Except.error`:
  `FileNotFoundError` is `notFound`, the size-cap `ValueError` is
  `sizeLimitExceeded`, and other `OSError`s are `ioError`.  The generator is
  modelled by the full finite sequence of values it yields.
* The backward loops decrease `position` by `min(chunk_size, position) >= 1`
  per iteration whenever `chunk_size >= 1`, so `position` itself bounds the
  number of iterations; the loops take that bound as structural fuel and the
  top-level entry points pass `file_size` for it.  (With `chunk_size = 0` the
  Python loops would not terminate; all theorems assume `1 <= chunk_size`.)
-/

/-- The line delimiter `b'\n'`. -/
def NL : Char := '\n'

/-- The ASCII whitespace characters stripped by Python's `str.strip()`. -/
def pySpace (c : Char) : Bool :=
  c = ' ' || c = '\t' || c = '\n' || c = '\r' || c = '\x0b' || c = '\x0c'

/-- Python `str.strip()`: drop leading and trailing whitespace. -/
def pyStrip (l : List Char) : List Char :=
  ((l.dropWhile pySpace).reverse.dropWhile pySpace).reverse

/-- Python `str.lower()` (ASCII case folding). -/
def lowerL (l : List Char) : List Char := l.map Char.toLower

/-- Python substring containment `needle in hay`. -/
def subIn (needle : List Char) (hay : List Char) : Bool :=
  if needle.isPrefixOf hay then true
  else
    match hay with
    | [] => false
    | _ :: t => subIn needle t

/-- The keyword test applied to a decoded line in both scan loops:
`keyword is None or keyword.lower() in decoded_line.lower()`. -/
def passes (kw : Option (List Char)) (d : List Char) : Bool :=
  match kw with
  | none => true
  | some k => subIn (lowerL k) (lowerL d)

/-- A normalized line is kept when it is non-empty and passes the keyword
test (`if decoded_line: if keyword is None or ...`). -/
def keeps (p : List Char → Bool) (d : List Char) : Bool :=
  !d.isEmpty && p d

/-- Python `bytes.split(b'\n')`: the `'\n'`-separated segments, always at
least one segment, empty segments preserved. -/
def splitNL : List Char → List (List Char)
  | [] => [[]]
  | c :: cs =>
    match splitNL cs with
    | [] => [[c]]
    | s :: rest => if c = NL then [] :: s :: rest else (c :: s) :: rest

/-- Inverse of `splitNL`: interleave the segments with `'\n'`. -/
def joinNL : List (List Char) → List Char
  | [] => []
  | [s] => s
  | s :: t :: rest => s ++ NL :: joinNL (t :: rest)

/-- `buffer.rfind(b'\n')` together with the two slices the eager loop takes:
`some (buffer[:line_end], buffer[line_end+1:])` when a delimiter exists. -/
def splitLast : List Char → Option (List Char × List Char)
  | [] => none
  | c :: cs =>
    match splitLast cs with
    | some (b, a) => some (c :: b, a)
    | none => if c = NL then some ([], cs) else none

/-- The prefix of a buffer before its first delimiter (the segment that
remains as carry once every complete line has been extracted). -/
def firstSeg : List Char → List Char
  | [] => []
  | c :: cs => if c = NL then [] else c :: firstSeg cs

/-- `lines[-1] += b` on a Python list of byte-strings. -/
def joinLast : List (List Char) → List Char → List (List Char)
  | [], b => [b]
  | [a], b => [a ++ b]
  | a :: s :: rest, b => a :: joinLast (s :: rest) b

/-- Python text-mode `readlines()`: split at `'\n'` keeping the delimiter on
every line that has one; no final empty line. -/
def pyReadlines : List Char → List (List Char)
  | [] => []
  | c :: cs =>
    if c = NL then [NL] :: pyReadlines cs
    else
      match pyReadlines cs with
      | [] => [[c]]
      | s :: rest => (c :: s) :: rest

/-- The filesystem object a path points at. -/
inductive FsEntry where
  | missing : FsEntry
  | directory (size : Nat) : FsEntry
  | regular (content : List Char) : FsEntry

/-- The failures the two operations can surface. -/
inductive TailError where
  | notFound : TailError
  | sizeLimitExceeded : TailError
  | ioError : TailError
deriving DecidableEq

/-- The eager reader's inner `while b'\n' in buffer:` loop: repeatedly split
the buffer at its last delimiter, normalize and test the extracted line,
append it to `lines` and count it, returning early (`.error lines`) the
moment `lines_found >= n`.  `fuel` bounds the iteration count; each
iteration strictly shrinks the buffer, so `buffer.length` suffices. -/
def drainBuffer (p : List Char → Bool) (n : Nat) :
    Nat → List Char → List (List Char) → Nat →
      Except (List (List Char)) (List Char × List (List Char) × Nat)
  | 0, buf, lines, found => .ok (buf, lines, found)
  | fuel + 1, buf, lines, found =>
    match splitLast buf with
    | none => .ok (buf, lines, found)
    | some (b, a) =>
      if a = [] then drainBuffer p n fuel b lines found
      else
        let d := pyStrip a
        if d = [] then drainBuffer p n fuel b lines found
        else if p d then
          if n ≤ found + 1 then .error (lines ++ [d])
          else drainBuffer p n fuel b (lines ++ [d]) (found + 1)
        else drainBuffer p n fuel b lines found

/-- The eager reader's epilogue: `if buffer and lines_found < n: ...` then
`return lines[:n]`. -/
def finalize (p : List Char → Bool) (n : Nat) (buf : List Char)
    (lines : List (List Char)) (found : Nat) : List (List Char) :=
  if buf ≠ [] ∧ found < n then
    let d := pyStrip buf
    if d ≠ [] ∧ p d = true then (lines ++ [d]).take n else lines.take n
  else lines.take n

/-- The eager reader's outer `while position > 0 and lines_found < n * 2:`
loop over backward chunk reads, followed by the epilogue. -/
def scanLoop (p : List Char → Bool) (csz n : Nat) (file : List Char) :
    Nat → Nat → List Char → List (List Char) → Nat → List (List Char)
  | 0, _, buf, lines, found => finalize p n buf lines found
  | fuel + 1, pos, buf, lines, found =>
    if 0 < pos ∧ found < n * 2 then
      let rsz := min csz pos
      let pos' := pos - rsz
      let chunk := (file.drop pos').take rsz
      match drainBuffer p n (chunk ++ buf).length (chunk ++ buf) lines found with
      | .error res => res
      | .ok (buf', lines', found') => scanLoop p csz n file fuel pos' buf' lines' found'
    else finalize p n buf lines found

/-- The small-file fast path: `readlines()`, keyword pre-filter (skipped for
a falsy keyword), then `all_lines[-n:][::-1]`. -/
def fastPath (content : List Char) (n : Nat) (kw : Option (List Char)) :
    List (List Char) :=
  let all_lines := pyReadlines content
  let flt :=
    match kw with
    | none => all_lines
    | some k =>
      if k = [] then all_lines
      else all_lines.filter (fun line => subIn (lowerL k) (lowerL line))
  if n = 0 then flt.reverse else flt.reverse.take n

/-- `read_last_n_lines_efficient(filepath, n, keyword)`. -/
def read_last_n_lines_efficient (csz maxSize : Nat) (target : FsEntry)
    (n : Nat) (kw : Option (List Char)) :
    Except TailError (List (List Char)) :=
  match target with
  | .missing => .error .notFound
  | .directory sz =>
    if sz = 0 then .ok []
    else if maxSize < sz then .error .sizeLimitExceeded
    else .error .ioError
  | .regular content =>
    if content.length = 0 then .ok []
    else if maxSize < content.length then .error .sizeLimitExceeded
    else if content.length < csz * 10 then .ok (fastPath content n kw)
    else
      .ok (scanLoop (passes kw) csz n content
            content.length content.length [] [] 0)

/-- The streaming variant's inner `while len(buffer) > 1 and
lines_yielded < n:` loop: pop fragments from the front, yield the ones that
normalize non-empty and pass the keyword test, and always leave the last
fragment in the buffer as carry. -/
def streamDrain (p : List Char → Bool) (n : Nat) :
    List (List Char) → List (List Char) → Nat →
      List (List Char) × List (List Char) × Nat
  | b :: c :: rest, acc, yielded =>
    if yielded < n then
      if b = [] then streamDrain p n (c :: rest) acc yielded
      else
        let d := pyStrip b
        if d ≠ [] ∧ p d = true then
          streamDrain p n (c :: rest) (acc ++ [d]) (yielded + 1)
        else streamDrain p n (c :: rest) acc yielded
    else (b :: c :: rest, acc, yielded)
  | buffer, acc, yielded => (buffer, acc, yielded)

/-- The streaming variant's outer `while position > 0 and lines_yielded < n:`
loop: read a chunk, split it, join the previous carry onto the chunk's last
fragment, reverse, and drain.  The sequence of yielded values is
accumulated in `acc`. -/
def streamLoop (p : List Char → Bool) (csz n : Nat) (file : List Char) :
    Nat → Nat → List (List Char) → List (List Char) → Nat → List (List Char)
  | 0, _, _, acc, _ => acc
  | fuel + 1, pos, buffer, acc, yielded =>
    if 0 < pos ∧ yielded < n then
      let rsz := min csz pos
      let pos' := pos - rsz
      let chunk := (file.drop pos').take rsz
      let lines := splitNL chunk
      let lines2 :=
        match buffer with
        | [] => lines
        | bcarry :: _ => joinLast lines bcarry
      let buffer3 := lines2.reverse ++ buffer.drop 1
      let r := streamDrain p n buffer3 acc yielded
      streamLoop p csz n file fuel pos' r.1 r.2.1 r.2.2
    else acc

/-- `read_last_n_lines_streaming(filepath, n, keyword)`, as the full finite
sequence of values the generator yields (or the exception it raises when
first iterated). -/
def read_last_n_lines_streaming (csz maxSize : Nat) (target : FsEntry)
    (n : Nat) (kw : Option (List Char)) :
    Except TailError (List (List Char)) :=
  match target with
  | .missing => .error .notFound
  | .directory sz =>
    if sz = 0 then .ok []
    else if maxSize < sz then .error .sizeLimitExceeded
    else .error .ioError
  | .regular content =>
    if content.length = 0 then .ok []
    else if maxSize < content.length then .error .sizeLimitExceeded
    else
      .ok (streamLoop (passes kw) csz n content
            content.length content.length [] [] 0)

/-- The sequence of `(start, length)` byte ranges the eager scan reads, in
order; mirrors `scanLoop` exactly. -/
def scanReads (p : List Char → Bool) (csz n : Nat) (file : List Char) :
    Nat → Nat → List Char → List (List Char) → Nat → List (Nat × Nat)
  | 0, _, _, _, _ => []
  | fuel + 1, pos, buf, lines, found =>
    if 0 < pos ∧ found < n * 2 then
      let rsz := min csz pos
      let pos' := pos - rsz
      let chunk := (file.drop pos').take rsz
      (pos', rsz) ::
        (match drainBuffer p n (chunk ++ buf).length (chunk ++ buf) lines found with
         | .error _ => []
         | .ok (buf', lines', found') =>
           scanReads p csz n file fuel pos' buf' lines' found')
    else []

/-- The sequence of `(start, length)` byte ranges the streaming scan reads,
in order; mirrors `streamLoop` exactly. -/
def streamReads (p : List Char → Bool) (csz n : Nat) (file : List Char) :
    Nat → Nat → List (List Char) → List (List Char) → Nat → List (Nat × Nat)
  | 0, _, _, _, _ => []
  | fuel + 1, pos, buffer, acc, yielded =>
    if 0 < pos ∧ yielded < n then
      let rsz := min csz pos
      let pos' := pos - rsz
      let chunk := (file.drop pos').take rsz
      let lines := splitNL chunk
      let lines2 :=
        match buffer with
        | [] => lines
        | bcarry :: _ => joinLast lines bcarry
      let buffer3 := lines2.reverse ++ buffer.drop 1
      let r := streamDrain p n buffer3 acc yielded
      (pos', rsz) :: streamReads p csz n file fuel pos' r.1 r.2.1 r.2.2
    else []

/-- A read trace forms a contiguous backward descent from `pos`: each read
takes exactly `min csz position` bytes ending where the previous position
was, so positions stay in `[0, pos]`, decrease strictly, and no byte range
is ever read twice. -/
def chainFrom (csz : Nat) : Nat → List (Nat × Nat) → Prop
  | _, [] => True
  | pos, sr :: rest =>
    sr.2 = min csz pos ∧ sr.1 = pos - sr.2 ∧ 0 < sr.2 ∧ chainFrom csz sr.1 rest

/-- The candidate lines of a segment list, processed newest-first: reverse,
normalize, and keep the non-empty ones that pass the keyword test. -/
def candsOf (p : List Char → Bool) (segs : List (List Char)) :
    List (List Char) :=
  (segs.reverse.map pyStrip).filter (keeps p)

/-- Chunk-free reference semantics of the eager general path: the last
`min n _` non-empty trimmed matching lines of the file, newest first. -/
def tailSpecL (p : List Char → Bool) (n : Nat) (file : List Char) :
    List (List Char) :=
  (candsOf p (splitNL file)).take n

/-- Chunk-free semantics of the streaming variant: identical to `tailSpecL`
except that the file's first physical line (the segment before the first
delimiter) never takes part. -/
def streamSpecL (p : List Char → Bool) (n : Nat) (file : List Char) :
    List (List Char) :=
  (candsOf p ((splitNL file).drop 1)).take n

/-- The number of lines of a file that are non-empty after trimming. -/
def totalNonemptyLines (file : List Char) : Nat :=
  (((splitNL file).map pyStrip).filter (fun d => !d.isEmpty)).length

/-! ### Structure of `splitNL` -/

theorem splitNL_ne_nil (l : List Char) : splitNL l ≠ [] := by
  cases l with
  | nil => simp [splitNL]
  | cons c cs =>
    simp only [splitNL]
    rcases h : splitNL cs with _ | ⟨s, rest⟩
    · simp
    · by_cases hc : c = NL <;> simp [hc]

theorem joinNL_splitNL (l : List Char) : joinNL (splitNL l) = l := by
  induction l with
  | nil => rfl
  | cons c cs ih =>
    rcases h : splitNL cs with _ | ⟨s, rest⟩
    · exact absurd h (splitNL_ne_nil cs)
    · rw [h] at ih
      by_cases hc : c = NL
      · subst hc
        simp only [splitNL, h, if_pos rfl]
        simpa [joinNL] using ih
      · simp only [splitNL, h, if_neg hc]
        cases rest with
        | nil => simpa [joinNL] using ih
        | cons r rs =>
          simp only [joinNL] at ih ⊢
          rw [List.cons_append, ih]

theorem splitNL_no_NL (l : List Char) : ∀ s ∈ splitNL l, NL ∉ s := by
  induction l with
  | nil => simp [splitNL]
  | cons c cs ih =>
    rcases h : splitNL cs with _ | ⟨s, rest⟩
    · exact absurd h (splitNL_ne_nil cs)
    · rw [h] at ih
      by_cases hc : c = NL
      · subst hc
        simp only [splitNL, h, if_pos rfl]
        intro t ht
        rcases List.mem_cons.1 ht with rfl | ht'
        · simp
        · exact ih t ht'
      · simp only [splitNL, h, if_neg hc]
        intro t ht
        rcases List.mem_cons.1 ht with rfl | ht'
        · intro hmem
          rcases List.mem_cons.1 hmem with rfl | hmem'
          · exact hc rfl
          · exact ih s (List.mem_cons_self s rest) hmem'
        · exact ih t (List.mem_cons_of_mem s ht')

theorem splitNL_of_not_mem {l : List Char} (h : NL ∉ l) : splitNL l = [l] := by
  induction l with
  | nil => rfl
  | cons c cs ih =>
    have hc : c ≠ NL := fun hc => h (hc ▸ List.mem_cons_self c cs)
    have hcs : NL ∉ cs := fun hm => h (List.mem_cons_of_mem c hm)
    rw [splitNL, ih hcs]
    simp [hc]

theorem splitNL_append_cons (x y : List Char) :
    splitNL (x ++ NL :: y) = splitNL x ++ splitNL y := by
  induction x with
  | nil =>
    rcases h : splitNL y with _ | ⟨s, rest⟩
    · exact absurd h (splitNL_ne_nil y)
    · simp [splitNL, h]
  | cons c xs ih =>
    rcases hx : splitNL xs with _ | ⟨s, rest⟩
    · exact absurd hx (splitNL_ne_nil xs)
    · rw [hx] at ih
      have key : splitNL (c :: (xs ++ NL :: y)) =
          match splitNL (xs ++ NL :: y) with
          | [] => [[c]]
          | s :: rest => if c = NL then [] :: s :: rest else (c :: s) :: rest := rfl
      rw [List.cons_append, key, ih]
      by_cases hc : c = NL <;> simp [splitNL, hx, hc]

theorem splitNL_joinNL (ss : List (List Char)) (hne : ss ≠ [])
    (hfree : ∀ s ∈ ss, NL ∉ s) : splitNL (joinNL ss) = ss := by
  induction ss with
  | nil => exact absurd rfl hne
  | cons s t ih =>
    cases t with
    | nil => exact splitNL_of_not_mem (hfree s (List.mem_cons_self s []))
    | cons u us =>
      have h1 : joinNL (s :: u :: us) = s ++ NL :: joinNL (u :: us) := rfl
      rw [h1, splitNL_append_cons,
        splitNL_of_not_mem (hfree s (List.mem_cons_self s (u :: us))),
        ih (by simp) (fun v hv => hfree v (List.mem_cons_of_mem s hv))]
      rfl

theorem splitLast_eq_none {l : List Char} (h : splitLast l = none) : NL ∉ l := by
  induction l with
  | nil => simp
  | cons c cs ih =>
    rw [splitLast] at h
    rcases hcs : splitLast cs with _ | ⟨b, a⟩
    · rw [hcs] at h
      by_cases hc : c = NL
      · simp [hc] at h
      · intro hm
        rcases List.mem_cons.1 hm with hm' | hm'
        · exact hc hm'.symm
        · exact ih hcs hm'
    · rw [hcs] at h
      simp at h

theorem splitLast_eq_some :
    ∀ {l b a : List Char}, splitLast l = some (b, a) → l = b ++ NL :: a ∧ NL ∉ a := by
  intro l
  induction l with
  | nil => intro b a h; simp [splitLast] at h
  | cons c cs ih =>
    intro b a h
    rw [splitLast] at h
    rcases hcs : splitLast cs with _ | ⟨b', a'⟩
    · rw [hcs] at h
      by_cases hc : c = NL
      · rw [if_pos hc] at h
        obtain ⟨hb, ha⟩ : b = [] ∧ a = cs := by
          constructor <;> · injection h with h'; injection h'; simp_all
        subst hb; subst ha
        exact ⟨by simp [hc], splitLast_eq_none hcs⟩
      · rw [if_neg hc] at h; exact absurd h (by simp)
    · rw [hcs] at h
      obtain ⟨hb, ha⟩ : b = c :: b' ∧ a = a' := by
        constructor <;> · injection h with h'; injection h'; simp_all
      subst hb; subst ha
      obtain ⟨h1, h2⟩ := ih hcs
      exact ⟨by rw [List.cons_append, ← h1], h2⟩

theorem splitLast_some_decomp {l b a : List Char} (h : splitLast l = some (b, a)) :
    splitNL l = splitNL b ++ [a] := by
  obtain ⟨h1, h2⟩ := splitLast_eq_some h
  rw [h1, splitNL_append_cons, splitNL_of_not_mem h2]

theorem splitLast_some_length {l b a : List Char} (h : splitLast l = some (b, a)) :
    b.length < l.length := by
  obtain ⟨h1, _⟩ := splitLast_eq_some h
  rw [h1]; simp

theorem firstSeg_not_mem (l : List Char) : NL ∉ firstSeg l := by
  induction l with
  | nil => simp [firstSeg]
  | cons c cs ih =>
    rw [firstSeg]
    by_cases hc : c = NL
    · simp [hc]
    · rw [if_neg hc]
      intro hm
      rcases List.mem_cons.1 hm with hm' | hm'
      · exact hc hm'.symm
      · exact ih hm'

theorem firstSeg_of_not_mem {l : List Char} (h : NL ∉ l) : firstSeg l = l := by
  induction l with
  | nil => rfl
  | cons c cs ih =>
    have hc : c ≠ NL := fun hc => h (hc ▸ List.mem_cons_self c cs)
    have hcs : NL ∉ cs := fun hm => h (List.mem_cons_of_mem c hm)
    rw [firstSeg, if_neg hc, ih hcs]

theorem firstSeg_append_cons (b a : List Char) :
    firstSeg (b ++ NL :: a) = firstSeg b := by
  induction b with
  | nil => simp [firstSeg]
  | cons c cs ih =>
    by_cases hc : c = NL
    · simp [firstSeg, hc]
    · simp [firstSeg, hc, ih]

theorem splitNL_head_eq (l : List Char) :
    splitNL l = firstSeg l :: (splitNL l).drop 1 := by
  induction l with
  | nil => rfl
  | cons c cs ih =>
    rcases h : splitNL cs with _ | ⟨s, rest⟩
    · exact absurd h (splitNL_ne_nil cs)
    · rw [h] at ih
      have hs : firstSeg cs = s := by
        have h2 := ih
        simp at h2
        first
        | exact h2
        | exact h2.symm
      by_cases hc : c = NL
      · simp [splitNL, h, firstSeg, hc]
      · simp [splitNL, h, firstSeg, hc, hs]

/-! ### Candidate lists -/

theorem pyStrip_nil : pyStrip [] = [] := rfl

theorem keeps_nil (p : List Char → Bool) : keeps p [] = false := rfl

theorem keeps_of_ne {p : List Char → Bool} {d : List Char} (hd : d ≠ []) :
    keeps p d = p d := by
  cases d with
  | nil => exact absurd rfl hd
  | cons x xs => simp [keeps, List.isEmpty]

theorem candsOf_nil (p : List Char → Bool) : candsOf p [] = [] := rfl

theorem candsOf_append (p : List Char → Bool) (xs ys : List (List Char)) :
    candsOf p (xs ++ ys) = candsOf p ys ++ candsOf p xs := by
  simp [candsOf, List.reverse_append, List.filter_append]

theorem candsOf_single (p : List Char → Bool) (a : List Char) :
    candsOf p [a] = if keeps p (pyStrip a) then [pyStrip a] else [] := by
  cases hk : keeps p (pyStrip a) <;> simp [candsOf, List.filter, hk]

theorem splitNL_append_decomp {B t0 : List Char} {ts : List (List Char)}
    (h : splitNL B = t0 :: ts) (A : List Char) :
    splitNL (A ++ B) = splitNL (A ++ t0) ++ ts := by
  have hB : B = joinNL (t0 :: ts) := by rw [← h, joinNL_splitNL]
  cases ts with
  | nil =>
    have : B = t0 := by simpa [joinNL] using hB
    rw [this, List.append_nil]
  | cons u us =>
    have hj : joinNL (t0 :: u :: us) = t0 ++ NL :: joinNL (u :: us) := rfl
    have hfree : ∀ s ∈ u :: us, NL ∉ s := by
      intro s hs
      exact splitNL_no_NL B s (h ▸ List.mem_cons_of_mem t0 hs)
    rw [hB, hj, ← List.append_assoc, splitNL_append_cons,
      splitNL_joinNL (u :: us) (by simp) hfree]

/-! ### The eager inner loop -/

theorem drainBuffer_spec (p : List Char → Bool) (n : Nat) :
    ∀ fuel buf lines found, buf.length ≤ fuel → found < n →
      drainBuffer p n fuel buf lines found =
        (if found + (candsOf p ((splitNL buf).drop 1)).length < n then
          Except.ok (firstSeg buf, lines ++ candsOf p ((splitNL buf).drop 1),
            found + (candsOf p ((splitNL buf).drop 1)).length)
        else Except.error (lines ++ (candsOf p ((splitNL buf).drop 1)).take (n - found))) := by
  intro fuel
  induction fuel with
  | zero =>
    intro buf lines found hfuel hfound
    have hbuf : buf = [] := by
      cases buf with
      | nil => rfl
      | cons x xs => simp at hfuel
    subst hbuf
    simp [drainBuffer, splitNL, candsOf, firstSeg, hfound]
  | succ fuel ih =>
    intro buf lines found hfuel hfound
    rcases hsl : splitLast buf with _ | ⟨b, a⟩
    · have hfree : NL ∉ buf := splitLast_eq_none hsl
      rw [splitNL_of_not_mem hfree] at *
      simp [drainBuffer, hsl, candsOf, firstSeg_of_not_mem hfree, hfound]
    · obtain ⟨hba, hafree⟩ := splitLast_eq_some hsl
      have hlen : b.length ≤ fuel := by
        have := splitLast_some_length hsl
        omega
      have hdecomp := splitLast_some_decomp hsl
      have hdrop : (splitNL buf).drop 1 = (splitNL b).drop 1 ++ [a] := by
        rw [hdecomp]
        conv_lhs => rw [splitNL_head_eq b]
        simp
      have hfs : firstSeg buf = firstSeg b := by rw [hba, firstSeg_append_cons]
      have hcands : candsOf p ((splitNL buf).drop 1) =
          (if keeps p (pyStrip a) then [pyStrip a] else []) ++
            candsOf p ((splitNL b).drop 1) := by
        rw [hdrop, candsOf_append, candsOf_single]
      by_cases ha : a = []
      · have hk : keeps p (pyStrip a) = false := by rw [ha, pyStrip_nil, keeps_nil]
        have hcs : candsOf p ((splitNL buf).drop 1) =
            candsOf p ((splitNL b).drop 1) := by
          rw [hcands, if_neg (by simp [hk]), List.nil_append]
        rw [hcs, hfs]
        simp only [drainBuffer, hsl, if_pos ha]
        exact ih b lines found hlen hfound
      · by_cases hd : pyStrip a = []
        · have hk : keeps p (pyStrip a) = false := by rw [hd, keeps_nil]
          have hcs : candsOf p ((splitNL buf).drop 1) =
              candsOf p ((splitNL b).drop 1) := by
            rw [hcands, if_neg (by simp [hk]), List.nil_append]
          rw [hcs, hfs]
          simp only [drainBuffer, hsl, if_neg ha, if_pos hd]
          exact ih b lines found hlen hfound
        · by_cases hp : p (pyStrip a) = true
          · have hk : keeps p (pyStrip a) = true := by rw [keeps_of_ne hd, hp]
            have hcs : candsOf p ((splitNL buf).drop 1) =
                pyStrip a :: candsOf p ((splitNL b).drop 1) := by
              rw [hcands, if_pos hk, List.singleton_append]
            rw [hcs, hfs]
            simp only [drainBuffer, hsl, if_neg ha, if_neg hd, hp, if_true,
              List.length_cons]
            by_cases hn1 : n ≤ found + 1
            · rw [if_pos hn1]
              have hc1 : ¬ found + ((candsOf p ((splitNL b).drop 1)).length + 1) < n := by
                omega
              rw [if_neg hc1]
              have hnf : n - found = 1 := by omega
              rw [hnf]
              simp
            · rw [if_neg hn1]
              have h2 : found + 1 < n := by omega
              rw [ih b (lines ++ [pyStrip a]) (found + 1) hlen h2]
              have harith : found + ((candsOf p ((splitNL b).drop 1)).length + 1) =
                  found + 1 + (candsOf p ((splitNL b).drop 1)).length := by omega
              rw [harith]
              by_cases hc2 : found + 1 + (candsOf p ((splitNL b).drop 1)).length < n
              · rw [if_pos hc2, if_pos hc2, List.append_assoc, List.singleton_append]
              · rw [if_neg hc2, if_neg hc2]
                have hnf : n - found = (n - (found + 1)) + 1 := by omega
                rw [hnf, List.take_succ_cons, List.append_assoc, List.singleton_append]
          · have hp' : p (pyStrip a) = false := by
              cases hpd : p (pyStrip a) with
              | false => rfl
              | true => exact absurd hpd hp
            have hk : ¬ keeps p (pyStrip a) = true := by
              rw [keeps_of_ne hd, hp']
              simp
            have hcs : candsOf p ((splitNL buf).drop 1) =
                candsOf p ((splitNL b).drop 1) := by
              rw [hcands, if_neg hk, List.nil_append]
            rw [hcs, hfs]
            simp only [drainBuffer, hsl, if_neg ha, if_neg hd, hp',
              Bool.false_eq_true, if_false]
            exact ih b lines found hlen hfound

/-! ### The eager outer loop -/

theorem finalize_spec (p : List Char → Bool) (n : Nat) (buf : List Char)
    (lines : List (List Char)) (found : Nat) (hfree : NL ∉ buf)
    (hfound : found < n) (hlen : lines.length = found) :
    finalize p n buf lines found =
      lines ++ (candsOf p (splitNL buf)).take (n - found) := by
  rw [splitNL_of_not_mem hfree, candsOf_single]
  by_cases hb : buf = []
  · subst hb
    rw [pyStrip_nil, keeps_nil]
    simp [finalize, List.take_of_length_le, hlen, Nat.le_of_lt hfound]
  · rw [finalize, if_pos ⟨hb, hfound⟩]
    by_cases hkp : pyStrip buf ≠ [] ∧ p (pyStrip buf) = true
    · have hk : keeps p (pyStrip buf) = true := by
        rw [keeps_of_ne hkp.1, hkp.2]
      rw [if_pos hkp, if_pos hk]
      have h1 : (lines ++ [pyStrip buf]).length ≤ n := by
        simp [hlen]; omega
      rw [List.take_of_length_le h1]
      have h2 : 1 ≤ n - found := by omega
      have h3 : ([pyStrip buf] : List (List Char)).length ≤ n - found := by simp [h2]
      rw [List.take_of_length_le h3]
    · have hk : ¬ keeps p (pyStrip buf) = true := by
        intro hkk
        rcases hd : pyStrip buf with _ | ⟨x, xs⟩
        · rw [hd, keeps_nil] at hkk
          exact Bool.false_ne_true hkk
        · rw [hd, keeps_of_ne (by simp)] at hkk
          exact hkp ⟨by rw [hd]; simp, by rw [hd]; exact hkk⟩
      rw [if_neg hkp, if_neg hk]
      rw [List.take_of_length_le (by omega : lines.length ≤ n)]
      simp

theorem scanLoop_spec (p : List Char → Bool) (csz n : Nat) (file : List Char)
    (hcsz : 1 ≤ csz) :
    ∀ fuel pos buf lines found, pos ≤ fuel → found < n → NL ∉ buf →
      lines.length = found →
      scanLoop p csz n file fuel pos buf lines found =
        lines ++ (candsOf p (splitNL (file.take pos ++ buf))).take (n - found) := by
  intro fuel
  induction fuel with
  | zero =>
    intro pos buf lines found hfuel hfound hfree hlen
    have hpos : pos = 0 := by omega
    subst hpos
    rw [List.take_zero, List.nil_append]
    exact finalize_spec p n buf lines found hfree hfound hlen
  | succ fuel ih =>
    intro pos buf lines found hfuel hfound hfree hlen
    by_cases hpos : pos = 0
    · subst hpos
      have : ¬ (0 < 0 ∧ found < n * 2) := by omega
      rw [scanLoop, if_neg this, List.take_zero, List.nil_append]
      exact finalize_spec p n buf lines found hfree hfound hlen
    · have hpos1 : 1 ≤ pos := by omega
      have hguard : 0 < pos ∧ found < n * 2 := by omega
      have hrsz : 1 ≤ min csz pos := le_min hcsz hpos1
      have hrle : min csz pos ≤ pos := min_le_right csz pos
      have htake : file.take (pos - min csz pos) ++
          (file.drop (pos - min csz pos)).take (min csz pos) = file.take pos := by
        rw [← List.take_add]
        congr 1
        omega
      have hassoc : file.take pos ++ buf =
          file.take (pos - min csz pos) ++
            ((file.drop (pos - min csz pos)).take (min csz pos) ++ buf) := by
        rw [← List.append_assoc, htake]
      set chunkbuf := (file.drop (pos - min csz pos)).take (min csz pos) ++ buf with hcb
      have hsplit : splitNL (file.take pos ++ buf) =
          splitNL (file.take (pos - min csz pos) ++ firstSeg chunkbuf) ++
            (splitNL chunkbuf).drop 1 := by
        rw [hassoc]
        exact splitNL_append_decomp (splitNL_head_eq chunkbuf) _
      have hcands : candsOf p (splitNL (file.take pos ++ buf)) =
          candsOf p ((splitNL chunkbuf).drop 1) ++
            candsOf p (splitNL (file.take (pos - min csz pos) ++ firstSeg chunkbuf)) := by
        rw [hsplit, candsOf_append]
      rcases hdr : drainBuffer p n chunkbuf.length chunkbuf lines found
        with res | ⟨buf', lines', found'⟩
      · have hspec := (drainBuffer_spec p n chunkbuf.length chunkbuf lines found
          (le_refl _) hfound).symm.trans hdr
        by_cases hL : found + (candsOf p ((splitNL chunkbuf).drop 1)).length < n
        · rw [if_pos hL] at hspec
          exact absurd hspec (by simp)
        · rw [if_neg hL] at hspec
          have hres : res = lines ++
              (candsOf p ((splitNL chunkbuf).drop 1)).take (n - found) := by
            injection hspec with h'
            exact h'.symm
          rw [scanLoop, if_pos hguard]
          simp only [← hcb]
          simp only [hdr]
          rw [hres, hcands, List.take_append_eq_append_take]
          have hz : n - found - (candsOf p ((splitNL chunkbuf).drop 1)).length = 0 := by
            omega
          rw [hz, List.take_zero, List.append_nil]
      · have hspec := (drainBuffer_spec p n chunkbuf.length chunkbuf lines found
          (le_refl _) hfound).symm.trans hdr
        by_cases hL : found + (candsOf p ((splitNL chunkbuf).drop 1)).length < n
        · rw [if_pos hL] at hspec
          injection hspec with h'
          simp only [Prod.mk.injEq] at h'
          obtain ⟨h1, h2, h3⟩ := h'
          subst h1
          subst h2
          subst h3
          rw [scanLoop, if_pos hguard]
          simp only [← hcb]
          simp only [hdr]
          have hfuel' : pos - min csz pos ≤ fuel := by omega
          have hlen' : (lines ++ candsOf p ((splitNL chunkbuf).drop 1)).length =
              found + (candsOf p ((splitNL chunkbuf).drop 1)).length := by
            simp [hlen]
          rw [ih (pos - min csz pos) (firstSeg chunkbuf) _ _ hfuel' hL
            (firstSeg_not_mem chunkbuf) hlen']
          rw [hcands, List.take_append_eq_append_take]
          have h1 : (candsOf p ((splitNL chunkbuf).drop 1)).take (n - found) =
              candsOf p ((splitNL chunkbuf).drop 1) :=
            List.take_of_length_le (by omega)
          rw [h1, List.append_assoc]
          have harith : n - (found + (candsOf p ((splitNL chunkbuf).drop 1)).length) =
              n - found - (candsOf p ((splitNL chunkbuf).drop 1)).length := by omega
          rw [harith]
        · rw [if_neg hL] at hspec
          exact absurd hspec (by simp)

theorem eager_general_path (csz maxSize n : Nat) (content : List Char)
    (kw : Option (List Char)) (hcsz : 1 ≤ csz) (hn : 1 ≤ n)
    (hbig : csz * 10 ≤ content.length) (hmax : content.length ≤ maxSize) :
    read_last_n_lines_efficient csz maxSize (.regular content) n kw =
      .ok (tailSpecL (passes kw) n content) := by
  have h0 : ¬ content.length = 0 := by omega
  have h1 : ¬ maxSize < content.length := by omega
  have h2 : ¬ content.length < csz * 10 := by omega
  simp only [read_last_n_lines_efficient, if_neg h0, if_neg h1, if_neg h2]
  rw [scanLoop_spec (passes kw) csz n content hcsz content.length content.length
    [] [] 0 (le_refl _) (by omega) (by simp) rfl]
  rw [List.take_length, List.append_nil, List.nil_append, Nat.sub_zero]
  rfl

/-! ### The streaming loops -/

theorem joinLast_nil (ls : List (List Char)) (h : ls ≠ []) : joinLast ls [] = ls := by
  induction ls with
  | nil => exact absurd rfl h
  | cons a t ih =>
    cases t with
    | nil => simp [joinLast]
    | cons s rest => rw [joinLast, ih (by simp)]

theorem joinLast_eq (x : List Char) :
    ∀ y : List Char, NL ∉ y → joinLast (splitNL x) y = splitNL (x ++ y) := by
  induction x with
  | nil =>
    intro y hy
    rw [List.nil_append, splitNL_of_not_mem hy]
    rfl
  | cons c cs ih =>
    intro y hy
    rcases hcs : splitNL cs with _ | ⟨s, rest⟩
    · exact absurd hcs (splitNL_ne_nil cs)
    · have ih' := ih y hy
      rw [hcs] at ih'
      have key : splitNL (c :: (cs ++ y)) =
          match splitNL (cs ++ y) with
          | [] => [[c]]
          | s :: rest => if c = NL then [] :: s :: rest else (c :: s) :: rest := rfl
      rw [List.cons_append, key, ← ih']
      by_cases hc : c = NL
      · subst hc
        cases rest with
        | nil => simp [splitNL, hcs, joinLast]
        | cons u us => simp [splitNL, hcs, joinLast]
      · cases rest with
        | nil => simp [splitNL, hcs, joinLast, hc]
        | cons u us => simp [splitNL, hcs, joinLast, hc]

theorem drop_one_append {α : Type} {X Y : List α} (h : X ≠ []) :
    (X ++ Y).drop 1 = X.drop 1 ++ Y := by
  cases X with
  | nil => exact absurd rfl h
  | cons a t => simp

theorem candsOf_def (p : List Char → Bool) (segs : List (List Char)) :
    candsOf p segs = (segs.reverse.map pyStrip).filter (keeps p) := rfl

theorem streamDrain_cons (p : List Char → Bool) (n : Nat) (b : List Char)
    (l : List (List Char)) (acc : List (List Char)) (y : Nat) (hl : l ≠ []) :
    streamDrain p n (b :: l) acc y =
      if y < n then
        (if keeps p (pyStrip b) = true then
          streamDrain p n l (acc ++ [pyStrip b]) (y + 1)
         else streamDrain p n l acc y)
      else (b :: l, acc, y) := by
  rcases l with _ | ⟨c, rest⟩
  · exact absurd rfl hl
  · simp only [streamDrain]
    by_cases hy : y < n
    · rw [if_pos hy, if_pos hy]
      by_cases hb : b = []
      · rw [if_pos hb]
        have hk : keeps p (pyStrip b) = false := by rw [hb, pyStrip_nil, keeps_nil]
        rw [hk]
        simp
      · rw [if_neg hb]
        by_cases hkp : pyStrip b ≠ [] ∧ p (pyStrip b) = true
        · have hk : keeps p (pyStrip b) = true := by rw [keeps_of_ne hkp.1, hkp.2]
          rw [if_pos hkp, if_pos hk]
        · have hk : ¬ keeps p (pyStrip b) = true := by
            intro hkk
            rcases hdd : pyStrip b with _ | ⟨x, xs⟩
            · rw [hdd, keeps_nil] at hkk
              exact Bool.false_ne_true hkk
            · rw [hdd, keeps_of_ne (by simp)] at hkk
              exact hkp ⟨by rw [hdd]; simp, by rw [hdd]; exact hkk⟩
          rw [if_neg hkp, if_neg hk]
    · rw [if_neg hy, if_neg hy]

theorem streamDrain_spec (p : List Char → Bool) (n : Nat) :
    ∀ (rs : List (List Char)) (t0 : List Char) (acc : List (List Char))
      (yielded : Nat), yielded ≤ n →
      (yielded + ((rs.map pyStrip).filter (keeps p)).length < n ∧
        streamDrain p n (rs ++ [t0]) acc yielded =
          ([t0], acc ++ (rs.map pyStrip).filter (keeps p),
            yielded + ((rs.map pyStrip).filter (keeps p)).length)) ∨
      (n ≤ yielded + ((rs.map pyStrip).filter (keeps p)).length ∧
        ∃ bl, streamDrain p n (rs ++ [t0]) acc yielded =
          (bl, acc ++ (((rs.map pyStrip).filter (keeps p)).take (n - yielded)), n)) := by
  intro rs
  induction rs with
  | nil =>
    intro t0 acc yielded hyn
    by_cases hy : yielded < n
    · left
      refine ⟨by simpa using hy, ?_⟩
      simp [streamDrain]
    · right
      have : yielded = n := by omega
      subst this
      refine ⟨by simp, [t0], ?_⟩
      simp [streamDrain]
  | cons b rs' ih =>
    intro t0 acc yielded hyn
    rw [List.cons_append, streamDrain_cons p n b (rs' ++ [t0]) acc yielded (by simp)]
    by_cases hy : yielded < n
    · rw [if_pos hy]
      by_cases hk : keeps p (pyStrip b) = true
      · rw [if_pos hk]
        have hfc : ((b :: rs').map pyStrip).filter (keeps p) =
            pyStrip b :: (rs'.map pyStrip).filter (keeps p) := by
          rw [List.map_cons, List.filter_cons_of_pos hk]
        rw [hfc]
        rcases ih t0 (acc ++ [pyStrip b]) (yielded + 1) (by omega)
          with ⟨h1, h2⟩ | ⟨h1, bl, h2⟩
        · left
          refine ⟨by simp; omega, ?_⟩
          rw [h2, List.append_assoc, List.singleton_append, List.length_cons]
          have : yielded + 1 + ((rs'.map pyStrip).filter (keeps p)).length =
              yielded + (((rs'.map pyStrip).filter (keeps p)).length + 1) := by omega
          rw [this]
        · right
          refine ⟨by simp; omega, bl, ?_⟩
          rw [h2, List.append_assoc, List.singleton_append]
          have hnf : n - yielded = (n - (yielded + 1)) + 1 := by omega
          rw [hnf, List.take_succ_cons]
      · rw [if_neg hk]
        have hfc : ((b :: rs').map pyStrip).filter (keeps p) =
            (rs'.map pyStrip).filter (keeps p) := by
          rw [List.map_cons, List.filter_cons_of_neg (by simpa using hk)]
        rw [hfc]
        exact ih t0 acc yielded hyn
    · rw [if_neg hy]
      have : yielded = n := by omega
      subst this
      right
      refine ⟨by omega, b :: (rs' ++ [t0]), ?_⟩
      simp

theorem streamLoop_yielded_full (p : List Char → Bool) (csz n : Nat)
    (file : List Char) (fuel pos : Nat) (buffer acc : List (List Char)) :
    streamLoop p csz n file fuel pos buffer acc n = acc := by
  cases fuel with
  | zero => rfl
  | succ f =>
    rw [streamLoop, if_neg (by omega)]

theorem streamLoop_spec (p : List Char → Bool) (csz n : Nat) (file : List Char)
    (hcsz : 1 ≤ csz) :
    ∀ fuel pos carry acc yielded, pos ≤ fuel → yielded ≤ n → NL ∉ carry →
      streamLoop p csz n file fuel pos [carry] acc yielded =
        acc ++ (candsOf p ((splitNL (file.take pos ++ carry)).drop 1)).take
          (n - yielded) := by
  intro fuel
  induction fuel with
  | zero =>
    intro pos carry acc yielded hfuel hyn hfree
    have hpos : pos = 0 := by omega
    subst hpos
    rw [List.take_zero, List.nil_append, splitNL_of_not_mem hfree]
    simp [candsOf, streamLoop]
  | succ fuel ih =>
    intro pos carry acc yielded hfuel hyn hfree
    by_cases hpos : pos = 0
    · subst hpos
      rw [streamLoop, if_neg (by omega), List.take_zero, List.nil_append,
        splitNL_of_not_mem hfree]
      simp [candsOf]
    · by_cases hy : yielded < n
      · have hpos1 : 1 ≤ pos := by omega
        have hrsz : 1 ≤ min csz pos := le_min hcsz hpos1
        have hrle : min csz pos ≤ pos := min_le_right csz pos
        have htake : file.take (pos - min csz pos) ++
            (file.drop (pos - min csz pos)).take (min csz pos) = file.take pos := by
          rw [← List.take_add]
          congr 1
          omega
        set chunk := (file.drop (pos - min csz pos)).take (min csz pos) with hch
        have hassoc : file.take pos ++ carry =
            file.take (pos - min csz pos) ++ (chunk ++ carry) := by
          rw [← List.append_assoc, htake]
        simp only [streamLoop]
        rw [if_pos (⟨by omega, hy⟩ : 0 < pos ∧ yielded < n)]
        simp only [List.drop_succ_cons, List.drop_zero, List.append_nil]
        rw [joinLast_eq chunk carry hfree]
        set cb := chunk ++ carry with hcb
        rw [splitNL_head_eq cb, List.reverse_cons]
        have hdecomp : splitNL (file.take pos ++ carry) =
            splitNL (file.take (pos - min csz pos) ++ firstSeg cb) ++
              (splitNL cb).drop 1 := by
          rw [hassoc]
          exact splitNL_append_decomp (splitNL_head_eq cb) _
        have hdrop1 : (splitNL (file.take pos ++ carry)).drop 1 =
            (splitNL (file.take (pos - min csz pos) ++ firstSeg cb)).drop 1 ++
              (splitNL cb).drop 1 := by
          rw [hdecomp, drop_one_append (splitNL_ne_nil _)]
        have hcands : candsOf p ((splitNL (file.take pos ++ carry)).drop 1) =
            candsOf p ((splitNL cb).drop 1) ++
              candsOf p ((splitNL (file.take (pos - min csz pos) ++ firstSeg cb)).drop 1) := by
          rw [hdrop1, candsOf_append]
        have hcs : ((((splitNL cb).drop 1).reverse).map pyStrip).filter (keeps p) =
            candsOf p ((splitNL cb).drop 1) := rfl
        rcases streamDrain_spec p n (((splitNL cb).drop 1).reverse) (firstSeg cb)
          acc yielded hyn with ⟨h1, h2⟩ | ⟨h1, bl, h2⟩
        · rw [hcs] at h1 h2
          rw [h2]
          dsimp only
          rw [ih (pos - min csz pos) (firstSeg cb) _ _ (by omega) (by omega)
            (firstSeg_not_mem cb)]
          rw [hcands, List.take_append_eq_append_take]
          have ht1 : (candsOf p ((splitNL cb).drop 1)).take (n - yielded) =
              candsOf p ((splitNL cb).drop 1) :=
            List.take_of_length_le (by omega)
          rw [ht1, List.append_assoc]
          have harith : n - yielded - (candsOf p ((splitNL cb).drop 1)).length =
              n - (yielded + (candsOf p ((splitNL cb).drop 1)).length) := by omega
          rw [harith]
        · rw [hcs] at h1 h2
          rw [h2]
          dsimp only
          rw [streamLoop_yielded_full]
          rw [hcands, List.take_append_eq_append_take]
          have hz : n - yielded - (candsOf p ((splitNL cb).drop 1)).length = 0 := by
            omega
          rw [hz, List.take_zero, List.append_nil]
      · have hyn' : yielded = n := by omega
        subst hyn'
        rw [streamLoop, if_neg (by omega)]
        simp

theorem streamLoop_nil_buffer (p : List Char → Bool) (csz n : Nat)
    (file : List Char) :
    ∀ fuel pos acc yielded,
      streamLoop p csz n file fuel pos [] acc yielded =
        streamLoop p csz n file fuel pos [[]] acc yielded := by
  intro fuel pos acc yielded
  cases fuel with
  | zero => rfl
  | succ f =>
    simp only [streamLoop]
    by_cases hg : 0 < pos ∧ yielded < n
    · rw [if_pos hg, if_pos hg]
      rw [joinLast_nil _ (splitNL_ne_nil _)]
      simp
    · rw [if_neg hg, if_neg hg]

theorem stream_general (csz maxSize n : Nat) (content : List Char)
    (kw : Option (List Char)) (hcsz : 1 ≤ csz)
    (hmax : content.length ≤ maxSize) :
    read_last_n_lines_streaming csz maxSize (.regular content) n kw =
      .ok (streamSpecL (passes kw) n content) := by
  by_cases h0 : content.length = 0
  · have hc : content = [] := List.length_eq_zero.1 h0
    subst hc
    simp [read_last_n_lines_streaming, streamSpecL, splitNL, candsOf]
  · simp only [read_last_n_lines_streaming, if_neg h0,
      if_neg (by omega : ¬ maxSize < content.length)]
    rw [streamLoop_nil_buffer]
    rw [streamLoop_spec (passes kw) csz n content hcsz content.length
      content.length [] [] 0 (le_refl _) (by omega) (by simp)]
    rw [List.take_length, List.append_nil, List.nil_append, Nat.sub_zero]
    rfl

/-! ### Read traces -/

theorem chainFrom_scanReads (p : List Char → Bool) (csz n : Nat)
    (file : List Char) (hcsz : 1 ≤ csz) :
    ∀ fuel pos buf lines found,
      chainFrom csz pos (scanReads p csz n file fuel pos buf lines found) := by
  intro fuel
  induction fuel with
  | zero =>
    intro pos buf lines found
    simp [scanReads, chainFrom]
  | succ fuel ih =>
    intro pos buf lines found
    by_cases hg : 0 < pos ∧ found < n * 2
    · rw [scanReads, if_pos hg]
      refine ⟨rfl, rfl, ?_, ?_⟩
      · have := le_min hcsz hg.1
        omega
      · rcases hdr : drainBuffer p n
          (((file.drop (pos - min csz pos)).take (min csz pos) ++ buf).length)
          ((file.drop (pos - min csz pos)).take (min csz pos) ++ buf) lines found
          with res | ⟨buf', lines', found'⟩
        · simp only [hdr]
          simp [chainFrom]
        · simp only [hdr]
          exact ih (pos - min csz pos) buf' lines' found'
    · rw [scanReads, if_neg hg]
      simp [chainFrom]

theorem chainFrom_streamReads (p : List Char → Bool) (csz n : Nat)
    (file : List Char) (hcsz : 1 ≤ csz) :
    ∀ fuel pos buffer acc yielded,
      chainFrom csz pos (streamReads p csz n file fuel pos buffer acc yielded) := by
  intro fuel
  induction fuel with
  | zero =>
    intro pos buffer acc yielded
    simp [streamReads, chainFrom]
  | succ fuel ih =>
    intro pos buffer acc yielded
    by_cases hg : 0 < pos ∧ yielded < n
    · rw [streamReads, if_pos hg]
      refine ⟨rfl, rfl, ?_, ?_⟩
      · have := le_min hcsz hg.1
        omega
      · exact ih (pos - min csz pos) _ _ _
    · rw [streamReads, if_neg hg]
      simp [chainFrom]

theorem chainFrom_mem_bounds (csz : Nat) :
    ∀ (tr : List (Nat × Nat)) (pos : Nat), chainFrom csz pos tr →
      ∀ sr ∈ tr, sr.1 + sr.2 ≤ pos ∧ 0 < sr.2 ∧ sr.2 = min csz (sr.1 + sr.2) := by
  intro tr
  induction tr with
  | nil =>
    intro pos h sr hsr
    simp at hsr
  | cons hd tl ih =>
    intro pos h sr hsr
    obtain ⟨h1, h2, h3, h4⟩ := h
    have hle : hd.2 ≤ pos := by
      rw [h1]
      exact min_le_right _ _
    have hhd : hd.1 + hd.2 = pos := by omega
    rcases List.mem_cons.1 hsr with rfl | hm
    · exact ⟨by omega, h3, by rw [hhd, ← h1]⟩
    · have hr := ih hd.1 h4 sr hm
      exact ⟨by omega, hr.2.1, hr.2.2⟩

theorem chainFrom_pairwise (csz : Nat) :
    ∀ (tr : List (Nat × Nat)) (pos : Nat), chainFrom csz pos tr →
      tr.Pairwise (fun a b => b.1 + b.2 ≤ a.1) := by
  intro tr
  induction tr with
  | nil =>
    intro pos h
    exact List.Pairwise.nil
  | cons hd tl ih =>
    intro pos h
    obtain ⟨h1, h2, h3, h4⟩ := h
    refine List.Pairwise.cons ?_ (ih hd.1 h4)
    intro b hb
    exact (chainFrom_mem_bounds csz tl hd.1 h4 b hb).1

/-! ### Further helper facts -/

theorem subIn_nil (hay : List Char) : subIn [] hay = true := by
  cases hay <;> simp [subIn, List.isPrefixOf]

theorem keeps_passes_none : keeps (passes none) = fun d => !d.isEmpty := by
  funext d
  simp [keeps, passes]

theorem tailSpecL_none_length (n : Nat) (content : List Char) :
    (tailSpecL (passes none) n content).length =
      min n (totalNonemptyLines content) := by
  rw [tailSpecL, List.length_take]
  congr 1
  rw [candsOf, keeps_passes_none, totalNonemptyLines,
    List.map_reverse, List.filter_reverse, List.length_reverse]

theorem mem_tailSpecL {p : List Char → Bool} {n : Nat} {file : List Char}
    {l : List Char} (h : l ∈ tailSpecL p n file) : p l = true := by
  rw [tailSpecL] at h
  have h2 := List.take_subset n _ h
  rw [candsOf] at h2
  have h3 := (List.mem_filter.1 h2).2
  simp only [keeps, Bool.and_eq_true] at h3
  exact h3.2

theorem mem_fastPath {content : List Char} {n : Nat} {k l : List Char}
    (h : l ∈ fastPath content n (some k)) :
    subIn (lowerL k) (lowerL l) = true := by
  by_cases hk : k = []
  · subst hk
    have : lowerL ([] : List Char) = [] := rfl
    rw [this, subIn_nil]
  · rw [fastPath] at h
    simp only [if_neg hk] at h
    have hmem : l ∈ (pyReadlines content).filter
        (fun line => subIn (lowerL k) (lowerL line)) := by
      by_cases hn : n = 0
      · rw [if_pos hn] at h
        exact List.mem_reverse.1 h
      · rw [if_neg hn] at h
        exact List.mem_reverse.1 (List.take_subset n _ h)
    exact (List.mem_filter.1 hmem).2

/-! ### Claims -/

/-- Claim C1 (counterexample): on the small-file fast path the claim fails.
For the 4-byte file `"x\n \n"` with `n = 2` and no keyword, `tail` returns
the raw, untrimmed lines `[" \n", "x\n"]` (trailing delimiter kept,
whitespace-only line kept), not the reverse of the last `min(n, total)`
non-empty trimmed lines, which is `["x"]`; its length is `2`, not
`min 2 1 = 1`. -/
theorem c1_counterexample :
    read_last_n_lines_efficient 8192 4294967296
      (FsEntry.regular ("x\n \n".toList)) 2 none =
        Except.ok [" \n".toList, "x\n".toList] ∧
    tailSpecL (passes none) 2 ("x\n \n".toList) = ["x".toList] ∧
    ([" \n".toList, "x\n".toList] : List (List Char)) ≠ ["x".toList] ∧
    totalNonemptyLines ("x\n \n".toList) = 1 ∧
    ¬ ([" \n".toList, "x\n".toList] : List (List Char)).length =
        min 2 (totalNonemptyLines ("x\n \n".toList)) :=
  ⟨rfl, rfl, by decide, rfl, by decide⟩

/-- Claim C1 (amended): on the general large-file path — file size at least
`chunk_size * 10` (and within the cap) — for every `n >= 1` and every
keyword, `tail` returns exactly the reverse of the last `min(n, total)`
non-empty trimmed matching lines (`tailSpecL`, which does not mention the
chunk size, so the result is chunk-size-independent); with no keyword the
result length is `min n total_nonempty_lines`.  The small-file fast path
instead returns the last `n` raw lines (untrimmed, empty lines kept,
delimiters kept), keyword-filtered, reversed. -/
theorem c1_general_path_exact (csz maxSize n : Nat) (content : List Char)
    (kw : Option (List Char)) (hcsz : 1 ≤ csz) (hn : 1 ≤ n)
    (hbig : csz * 10 ≤ content.length) (hmax : content.length ≤ maxSize) :
    read_last_n_lines_efficient csz maxSize (.regular content) n kw =
      .ok (tailSpecL (passes kw) n content) ∧
    (tailSpecL (passes none) n content).length =
      min n (totalNonemptyLines content) :=
  ⟨eager_general_path csz maxSize n content kw hcsz hn hbig hmax,
    tailSpecL_none_length n content⟩

/-- Witness for C1's amended theorem at `chunk_size 1`, the 10-byte file
`"aaaa\nbbbb\n"`, `n = 2`, no keyword. -/
theorem c1_witness :
    ((1 : Nat) ≤ 1 ∧ (1 : Nat) ≤ 2 ∧ 1 * 10 ≤ ("aaaa\nbbbb\n".toList).length ∧
      ("aaaa\nbbbb\n".toList).length ≤ 100) ∧
    (read_last_n_lines_efficient 1 100 (.regular ("aaaa\nbbbb\n".toList)) 2 none =
      .ok (tailSpecL (passes none) 2 ("aaaa\nbbbb\n".toList)) ∧
    (tailSpecL (passes none) 2 ("aaaa\nbbbb\n".toList)).length =
      min 2 (totalNonemptyLines ("aaaa\nbbbb\n".toList))) :=
  ⟨⟨by decide, by decide, by decide, by decide⟩,
    c1_general_path_exact 1 100 2 ("aaaa\nbbbb\n".toList) none
      (by decide) (by decide) (by decide) (by decide)⟩

/-- Claim C2: false — the streaming variant does not yield the same
sequence as the eager reader.  Its inner loop runs only while
`len(buffer) > 1`, so the final carry (the file's first physical line) is
never processed: on `"aaaa\nbbbb\n"` with `chunk_size 1`, `n = 2`, no
keyword, `tail_stream` yields only `["bbbb"]` while `tail` returns
`["bbbb", "aaaa"]`. -/
theorem c2_stream_differs_from_eager :
    read_last_n_lines_streaming 1 100
      (FsEntry.regular ("aaaa\nbbbb\n".toList)) 2 none =
        Except.ok ["bbbb".toList] ∧
    read_last_n_lines_efficient 1 100
      (FsEntry.regular ("aaaa\nbbbb\n".toList)) 2 none =
        Except.ok ["bbbb".toList, "aaaa".toList] ∧
    (["bbbb".toList] : List (List Char)) ≠ ["bbbb".toList, "aaaa".toList] :=
  ⟨rfl, rfl, by decide⟩

/-- Claim C3: false for the streaming variant — when the scan reaches
position 0 with budget remaining, the eager reader flushes the carry
buffer but the streaming variant never does.  On `"first\nsecond\n"` with
`chunk_size 1` and `n = 9` (budget not exhausted), the carry `"first"`
normalizes non-empty and matches, and the eager reader emits it last, yet
the stream never yields it. -/
theorem c3_stream_carry_never_flushed :
    read_last_n_lines_streaming 1 100
      (FsEntry.regular ("first\nsecond\n".toList)) 9 none =
        Except.ok ["second".toList] ∧
    read_last_n_lines_efficient 1 100
      (FsEntry.regular ("first\nsecond\n".toList)) 9 none =
        Except.ok ["second".toList, "first".toList] ∧
    pyStrip ("first".toList) = "first".toList ∧
    passes none ("first".toList) = true ∧
    ("first".toList : List Char) ∉ (["second".toList] : List (List Char)) :=
  ⟨rfl, rfl, rfl, rfl, by decide⟩

/-- Claim C4 (counterexample): in the streaming variant, a line that spans
two chunk reads and is the file's first physical line never appears in the
output at all.  File `"ab\n"`, `chunk_size 2`: the reads are bytes `[1,3)`
then `[0,1)`, so line `"ab"` spans both; a one-piece read of the whole
file yields `["ab"]`, but `tail_stream` yields nothing. -/
theorem c4_counterexample :
    read_last_n_lines_streaming 2 100 (FsEntry.regular ("ab\n".toList)) 1 none =
      Except.ok [] ∧
    splitNL ("ab\n".toList) = ["ab".toList, []] ∧
    tailSpecL (passes none) 1 ("ab\n".toList) = ["ab".toList] ∧
    ("ab".toList : List Char) ∉ ([] : List (List Char)) :=
  ⟨rfl, rfl, rfl, by decide⟩

/-- Claim C4 (amended): lines spanning two consecutive backward chunk reads
are reassembled intact: on the general path the eager reader's output
equals the chunk-free reference `tailSpecL`, and the streaming variant's
output equals the chunk-free `streamSpecL`, neither of which mentions the
chunk size — so chunk boundaries never corrupt or split a line.  However,
the streaming variant never emits the file's first physical line (spanning
or not): `streamSpecL` drops the first segment. -/
theorem c4_chunk_reassembly (csz maxSize n : Nat) (content : List Char)
    (kw : Option (List Char)) (hcsz : 1 ≤ csz) (hn : 1 ≤ n)
    (hbig : csz * 10 ≤ content.length) (hmax : content.length ≤ maxSize) :
    read_last_n_lines_efficient csz maxSize (.regular content) n kw =
      .ok (tailSpecL (passes kw) n content) ∧
    read_last_n_lines_streaming csz maxSize (.regular content) n kw =
      .ok (streamSpecL (passes kw) n content) :=
  ⟨eager_general_path csz maxSize n content kw hcsz hn hbig hmax,
    stream_general csz maxSize n content kw hcsz hmax⟩

/-- Witness for C4's amended theorem at `chunk_size 3`, a 35-byte file, and
`n = 3`. -/
theorem c4_witness :
    ((1 : Nat) ≤ 3 ∧ (1 : Nat) ≤ 3 ∧
      3 * 10 ≤ ("alpha\nbeta gamma delta\nepsilon\nzeta\n".toList).length ∧
      ("alpha\nbeta gamma delta\nepsilon\nzeta\n".toList).length ≤ 1000) ∧
    (read_last_n_lines_efficient 3 1000
        (.regular ("alpha\nbeta gamma delta\nepsilon\nzeta\n".toList)) 3 none =
      .ok (tailSpecL (passes none) 3
        ("alpha\nbeta gamma delta\nepsilon\nzeta\n".toList)) ∧
    read_last_n_lines_streaming 3 1000
        (.regular ("alpha\nbeta gamma delta\nepsilon\nzeta\n".toList)) 3 none =
      .ok (streamSpecL (passes none) 3
        ("alpha\nbeta gamma delta\nepsilon\nzeta\n".toList))) :=
  ⟨⟨by decide, by decide, by decide, by decide⟩,
    c4_chunk_reassembly 3 1000 3 ("alpha\nbeta gamma delta\nepsilon\nzeta\n".toList)
      none (by decide) (by decide) (by decide) (by decide)⟩

/-- Claim C6: a regular file whose size exceeds the configured maximum is
rejected by both `tail` and `tail_stream` with the size-limit error, before
any scan. -/
theorem c6_size_limit (csz maxSize n : Nat) (content : List Char)
    (kw : Option (List Char)) (h : maxSize < content.length) :
    read_last_n_lines_efficient csz maxSize (.regular content) n kw =
      .error .sizeLimitExceeded ∧
    read_last_n_lines_streaming csz maxSize (.regular content) n kw =
      .error .sizeLimitExceeded := by
  have h0 : ¬ content.length = 0 := by omega
  constructor
  · simp only [read_last_n_lines_efficient, if_neg h0, if_pos h]
  · simp only [read_last_n_lines_streaming, if_neg h0, if_pos h]

/-- Witness for C6 with a 4-byte file over a 3-byte cap. -/
theorem c6_witness :
    (3 : Nat) < ("abcd".toList).length ∧
    (read_last_n_lines_efficient 8192 3 (.regular ("abcd".toList)) 1 none =
      .error .sizeLimitExceeded ∧
    read_last_n_lines_streaming 8192 3 (.regular ("abcd".toList)) 1 none =
      .error .sizeLimitExceeded) :=
  ⟨by decide, c6_size_limit 8192 3 1 ("abcd".toList) none (by decide)⟩

/-- Claim C7 (counterexample): an existing target that is not a regular
file does not produce the not-found error.  A directory (reported size
4096) passes the `exists()` check; `open()` then raises
`IsADirectoryError`, an I/O error, so `tail` fails with `ioError`, not
`notFound` (and the HTTP layer maps it separately). -/
theorem c7_counterexample :
    read_last_n_lines_efficient 8192 4294967296 (FsEntry.directory 4096) 1 none =
      Except.error TailError.ioError ∧
    TailError.ioError ≠ TailError.notFound :=
  ⟨rfl, by decide⟩

/-- Claim C7 (amended): `tail` (and `tail_stream`) fails with the not-found
error exactly when the target does not exist; an existing non-regular
target yields `ioError` instead (or trivially succeeds when its reported
size is 0), never `notFound`. -/
theorem c7_notfound_iff_missing (csz maxSize n : Nat) (fs : FsEntry)
    (kw : Option (List Char)) :
    (read_last_n_lines_efficient csz maxSize fs n kw =
      .error .notFound ↔ fs = .missing) ∧
    (read_last_n_lines_streaming csz maxSize fs n kw =
      .error .notFound ↔ fs = .missing) := by
  constructor
  · cases fs with
    | missing => simp [read_last_n_lines_efficient]
    | directory sz =>
      simp only [read_last_n_lines_efficient]
      constructor
      · intro h
        split at h
        · simp_all
        · split at h <;> simp_all
      · intro h
        exact absurd h (by simp)
    | regular content =>
      simp only [read_last_n_lines_efficient]
      constructor
      · intro h
        split at h
        · simp_all
        · split at h
          · simp_all
          · split at h <;> simp_all
      · intro h
        exact absurd h (by simp)
  · cases fs with
    | missing => simp [read_last_n_lines_streaming]
    | directory sz =>
      simp only [read_last_n_lines_streaming]
      constructor
      · intro h
        split at h
        · simp_all
        · split at h <;> simp_all
      · intro h
        exact absurd h (by simp)
    | regular content =>
      simp only [read_last_n_lines_streaming]
      constructor
      · intro h
        split at h
        · simp_all
        · split at h <;> simp_all
      · intro h
        exact absurd h (by simp)

/-- Claim C9: for every target and every `n`, the empty-string keyword
behaves exactly like no keyword: the fast path skips filtering because
`if keyword:` is falsy, and the scan loops pass every line because the empty
string is a substring of everything. -/
theorem c9_empty_keyword (csz maxSize n : Nat) (fs : FsEntry) :
    read_last_n_lines_efficient csz maxSize fs n (some []) =
      read_last_n_lines_efficient csz maxSize fs n none ∧
    read_last_n_lines_streaming csz maxSize fs n (some []) =
      read_last_n_lines_streaming csz maxSize fs n none := by
  have hpass : passes (some []) = passes none := by
    funext d
    have h1 : lowerL ([] : List Char) = [] := rfl
    simp [passes, h1, subIn_nil]
  cases fs with
  | missing => exact ⟨rfl, rfl⟩
  | directory sz => exact ⟨rfl, rfl⟩
  | regular content =>
    constructor
    · simp only [read_last_n_lines_efficient, hpass]
      simp [fastPath]
    · simp only [read_last_n_lines_streaming, hpass]

/-- Claim C10: applied to an existing empty regular file, `tail_stream`
yields no values and raises no error, for every `n`, every keyword, and
every configuration: the generator returns before the size check and
before performing any read (its read trace is empty). -/
theorem c10_stream_empty_file (csz maxSize n : Nat) (kw : Option (List Char)) :
    read_last_n_lines_streaming csz maxSize (FsEntry.regular []) n kw =
      Except.ok [] ∧
    streamReads (passes kw) csz n [] ([] : List Char).length 0 [] [] 0 = [] :=
  ⟨rfl, rfl⟩

/-- Claim C5: when the keyword is absent every normalized line passes the
filter; when a keyword is given, every line `tail` returns contains the
keyword under case-insensitive comparison (both sides folded with the same
`lowerL`), on every path; and on the general path the result equals the
chunk-free reference `tailSpecL`, so membership never depends on chunk
boundaries (no false negatives for lines spanning two chunk reads). -/
theorem c5_keyword_filter (csz maxSize n : Nat) (fs : FsEntry) (k : List Char)
    (res : List (List Char)) (hcsz : 1 ≤ csz) (hn : 1 ≤ n)
    (hres : read_last_n_lines_efficient csz maxSize fs n (some k) = .ok res) :
    (∀ d, passes none d = true) ∧
    (∀ l ∈ res, subIn (lowerL k) (lowerL l) = true) ∧
    (∀ content, csz * 10 ≤ content.length → content.length ≤ maxSize →
      read_last_n_lines_efficient csz maxSize (.regular content) n (some k) =
        .ok (tailSpecL (passes (some k)) n content)) := by
  refine ⟨fun d => rfl, ?_, ?_⟩
  · cases fs with
    | missing => simp [read_last_n_lines_efficient] at hres
    | directory sz =>
      simp only [read_last_n_lines_efficient] at hres
      split at hres
      · have hr : res = [] := by
          injection hres with h'
          exact h'.symm
        subst hr
        intro l hl
        simp at hl
      · split at hres <;> simp_all
    | regular content =>
      simp only [read_last_n_lines_efficient] at hres
      split at hres
      · have hr : res = [] := by
          injection hres with h'
          exact h'.symm
        subst hr
        intro l hl
        simp at hl
      · split at hres
        · simp_all
        · split at hres
          · have hr : res = fastPath content n (some k) := by
              injection hres with h'
              exact h'.symm
            subst hr
            intro l hl
            exact mem_fastPath hl
          · rename_i h0 h1 h2
            rw [scanLoop_spec (passes (some k)) csz n content hcsz content.length
              content.length [] [] 0 (le_refl _) (by omega) (by simp) rfl] at hres
            rw [List.take_length, List.append_nil, List.nil_append,
              Nat.sub_zero] at hres
            have hr : res = tailSpecL (passes (some k)) n content := by
              injection hres with h'
              exact h'.symm
            subst hr
            intro l hl
            have h5 : passes (some k) l = true := mem_tailSpecL hl
            exact h5
  · intro content hbig hmax
    exact eager_general_path csz maxSize n content (some k) hcsz hn hbig hmax

/-- Witness for C5 at `chunk_size 1`, the file `"aaaa\nbbbb\n"`, `n = 1`,
keyword `"BB"` (matching `"bbbb"` case-insensitively). -/
theorem c5_witness :
    ((1 : Nat) ≤ 1 ∧ (1 : Nat) ≤ 1 ∧
      read_last_n_lines_efficient 1 100 (.regular ("aaaa\nbbbb\n".toList)) 1
        (some ("BB".toList)) = .ok ["bbbb".toList]) ∧
    ((∀ d, passes none d = true) ∧
      (∀ l ∈ (["bbbb".toList] : List (List Char)),
        subIn (lowerL ("BB".toList)) (lowerL l) = true) ∧
      (∀ content, 1 * 10 ≤ content.length → content.length ≤ 100 →
        read_last_n_lines_efficient 1 100 (.regular content) 1
          (some ("BB".toList)) =
          .ok (tailSpecL (passes (some ("BB".toList))) 1 content))) :=
  ⟨⟨by decide, by decide, by rfl⟩,
    c5_keyword_filter 1 100 1 (.regular ("aaaa\nbbbb\n".toList)) ("BB".toList)
      ["bbbb".toList] (by decide) (by decide) (by rfl)⟩

/-- Claim C8: throughout every scan of both variants, the read trace is a
contiguous backward descent: each read takes exactly
`min chunk_size position` bytes (always at least one), ends where the
previous position was, positions stay within `[0, file_size]` and strictly
decrease, and no byte range is read twice (later reads lie strictly below
earlier ones).  Lines are emitted in strictly decreasing byte-offset
order: each variant's output is a sublist of the newest-first sequence of
normalized segments. -/
theorem c8_scan_invariants (csz maxSize n : Nat) (content : List Char)
    (kw : Option (List Char)) (hcsz : 1 ≤ csz) :
    chainFrom csz content.length
      (scanReads (passes kw) csz n content content.length content.length [] [] 0) ∧
    chainFrom csz content.length
      (streamReads (passes kw) csz n content content.length content.length [] [] 0) ∧
    (∀ sr ∈ scanReads (passes kw) csz n content content.length content.length [] [] 0,
      sr.1 + sr.2 ≤ content.length ∧ 0 < sr.2 ∧ sr.2 = min csz (sr.1 + sr.2)) ∧
    (∀ sr ∈ streamReads (passes kw) csz n content content.length content.length [] [] 0,
      sr.1 + sr.2 ≤ content.length ∧ 0 < sr.2 ∧ sr.2 = min csz (sr.1 + sr.2)) ∧
    (scanReads (passes kw) csz n content content.length content.length [] [] 0).Pairwise
      (fun a b => b.1 + b.2 ≤ a.1) ∧
    (streamReads (passes kw) csz n content content.length content.length [] [] 0).Pairwise
      (fun a b => b.1 + b.2 ≤ a.1) ∧
    (∀ res, 1 ≤ n → csz * 10 ≤ content.length →
      read_last_n_lines_efficient csz maxSize (.regular content) n kw = .ok res →
      res.Sublist (((splitNL content).reverse).map pyStrip)) ∧
    (∀ res, read_last_n_lines_streaming csz maxSize (.regular content) n kw = .ok res →
      res.Sublist (((splitNL content).reverse).map pyStrip)) := by
  have hce := chainFrom_scanReads (passes kw) csz n content hcsz
    content.length content.length [] [] 0
  have hcs := chainFrom_streamReads (passes kw) csz n content hcsz
    content.length content.length [] [] 0
  refine ⟨hce, hcs, chainFrom_mem_bounds csz _ _ hce,
    chainFrom_mem_bounds csz _ _ hcs, chainFrom_pairwise csz _ _ hce,
    chainFrom_pairwise csz _ _ hcs, ?_, ?_⟩
  · intro res hn hbig hres
    by_cases hmax : content.length ≤ maxSize
    · rw [eager_general_path csz maxSize n content kw hcsz hn hbig hmax] at hres
      have hr : res = tailSpecL (passes kw) n content := by
        injection hres with h'
        exact h'.symm
      subst hr
      exact (List.take_sublist _ _).trans (List.filter_sublist _)
    · have h0 : ¬ content.length = 0 := by omega
      rw [read_last_n_lines_efficient] at hres
      rw [if_neg h0, if_pos (by omega)] at hres
      exact absurd hres (by simp)
  · intro res hres
    by_cases hmax : content.length ≤ maxSize
    · rw [stream_general csz maxSize n content kw hcsz hmax] at hres
      have hr : res = streamSpecL (passes kw) n content := by
        injection hres with h'
        exact h'.symm
      subst hr
      refine (List.take_sublist _ _).trans ((List.filter_sublist _).trans ?_)
      exact ((List.drop_sublist 1 (splitNL content)).reverse).map pyStrip
    · have h0 : ¬ content.length = 0 := by omega
      rw [read_last_n_lines_streaming] at hres
      rw [if_neg h0, if_pos (by omega)] at hres
      exact absurd hres (by simp)

/-- Witness for C8 at `chunk_size 1`, the file `"aaaa\nbbbb\n"`, `n = 2`,
no keyword. -/
theorem c8_witness :
    (1 : Nat) ≤ 1 ∧
    (chainFrom 1 (("aaaa\nbbbb\n".toList)).length
      (scanReads (passes none) 1 2 ("aaaa\nbbbb\n".toList)
        (("aaaa\nbbbb\n".toList)).length (("aaaa\nbbbb\n".toList)).length [] [] 0) ∧
    chainFrom 1 (("aaaa\nbbbb\n".toList)).length
      (streamReads (passes none) 1 2 ("aaaa\nbbbb\n".toList)
        (("aaaa\nbbbb\n".toList)).length (("aaaa\nbbbb\n".toList)).length [] [] 0) ∧
    (∀ sr ∈ scanReads (passes none) 1 2 ("aaaa\nbbbb\n".toList)
        (("aaaa\nbbbb\n".toList)).length (("aaaa\nbbbb\n".toList)).length [] [] 0,
      sr.1 + sr.2 ≤ (("aaaa\nbbbb\n".toList)).length ∧ 0 < sr.2 ∧
        sr.2 = min 1 (sr.1 + sr.2)) ∧
    (∀ sr ∈ streamReads (passes none) 1 2 ("aaaa\nbbbb\n".toList)
        (("aaaa\nbbbb\n".toList)).length (("aaaa\nbbbb\n".toList)).length [] [] 0,
      sr.1 + sr.2 ≤ (("aaaa\nbbbb\n".toList)).length ∧ 0 < sr.2 ∧
        sr.2 = min 1 (sr.1 + sr.2)) ∧
    (scanReads (passes none) 1 2 ("aaaa\nbbbb\n".toList)
      (("aaaa\nbbbb\n".toList)).length (("aaaa\nbbbb\n".toList)).length [] [] 0).Pairwise
        (fun a b => b.1 + b.2 ≤ a.1) ∧
    (streamReads (passes none) 1 2 ("aaaa\nbbbb\n".toList)
      (("aaaa\nbbbb\n".toList)).length (("aaaa\nbbbb\n".toList)).length [] [] 0).Pairwise
        (fun a b => b.1 + b.2 ≤ a.1) ∧
    (∀ res, 1 ≤ 2 → 1 * 10 ≤ (("aaaa\nbbbb\n".toList)).length →
      read_last_n_lines_efficient 1 100 (.regular ("aaaa\nbbbb\n".toList)) 2 none =
        .ok res →
      res.Sublist (((splitNL ("aaaa\nbbbb\n".toList)).reverse).map pyStrip)) ∧
    (∀ res, read_last_n_lines_streaming 1 100
        (.regular ("aaaa\nbbbb\n".toList)) 2 none = .ok res →
      res.Sublist (((splitNL ("aaaa\nbbbb\n".toList)).reverse).map pyStrip))) :=
  ⟨by decide, c8_scan_invariants 1 100 2 ("aaaa\nbbbb\n".toList) none (by decide)⟩
